import Mathlib

/-!
A shallow embedding of the convolutional sequence-to-sequence model of
`src/fairseq/models/fconv.py` (the fconv encoder/decoder family), together
with proofs about its decoder incremental-state machine, attention layer,
configuration validation, state-dict migration and gradient scaling.

Modelling conventions:

* Tensors are modelled per batch element.  A `B x T x C` tensor becomes a
  time-indexed list of channel vectors (`List Vec`), a `B x T` token batch
  becomes `List Nat`.  The layout transpositions `B x T x C <-> T x B x C`
  in the source (`x.transpose(0, 1)` and `_transpose_unless_incremental_eval`)
  move the batch axis only and are therefore invisible in this
  representation; the `transpose(1, 2)` inside `_split_encoder_out`, which
  transposes the time and channel axes of one batch element, is modelled as
  a genuine matrix transpose.
* Rationals stand for the floating-point scalars.  The irrational constants
  produced by `math.sqrt` and the transcendental functions used by
  `F.softmax` (exp) and `F.glu` (sigmoid) are supplied as parameters of the
  model (`sqrtQ`, `expQ`, `sig`); every theorem below holds for all values
  of these parameters, in particular for rational approximations of the
  true functions.
* Learned parameters (embedding tables, weight-normalized linear layers and
  convolution kernels) are data, not repository code; they appear as
  abstract functions in the model structures.  The composition of those
  functions — the actual content of `fconv.py` — is embedded faithfully.
* `F.dropout(x, p, training)` is deterministic at evaluation time (the only
  regime in which the incremental/full comparison is meaningful); it is
  modelled as an arbitrary per-position function `drop`.
-/

namespace FConv

/-- A channel vector: one time position of one batch element. -/
abbrev Vec := List ℚ

/-- A per-batch-element matrix (e.g. `time x channel` of one batch element). -/
abbrev Mat := List (List ℚ)

/-- Pointwise addition of channel vectors (tensor `+`). -/
def vadd (u v : Vec) : Vec := List.zipWith (fun a b => a + b) u v

/-- Multiply a channel vector by a scalar (tensor `*` with a Python float). -/
def scaleVec (c : ℚ) (v : Vec) : Vec := v.map (fun a => c * a)

/-- Inner product of two vectors, the elementary step of `torch.bmm`. -/
def dot (u v : Vec) : ℚ := (List.zipWith (fun a b => a * b) u v).sum

/-- Matrix transpose of one batch element, as performed by
`encoder_a.transpose(1, 2)` in `FConvDecoder._split_encoder_out`. -/
def transposeM (m : Mat) : Mat :=
  (List.range (m.headD []).length).map (fun j => m.map (fun r => r.getD j 0))

/-- One row of a batched matrix product: `x` is a single `1 x C` row of the
left operand of `torch.bmm`, `m` the `C x S` right operand of this batch
element; entry `j` of the result is the inner product of `x` with column `j`
of `m`. -/
def rowVecMul (x : Vec) (m : Mat) : Vec := (transposeM m).map (fun c => dot x c)

/-- `F.softmax(row, dim=1)` over one row, with the exponential supplied as
the parameter `e`. -/
def softmaxRow (e : ℚ → ℚ) (r : Vec) : Vec :=
  let s := (r.map e).sum
  r.map (fun a => e a / s)

/-- `F.glu(v, dim=2)` on one position: split the channels in half and gate
the first half by `sig` (sigmoid) of the second half. -/
def glu (sig : ℚ → ℚ) (v : Vec) : Vec :=
  let n := v.length / 2
  List.zipWith (fun a b => a * sig b) (v.take n) (v.drop n)

/-- The last `k` elements of a list (all of it when it is shorter). -/
def takeLast (k : Nat) (l : List α) : List α := l.drop (l.length - k)

/-- The causal window of width `k` ending at time `t`: the inputs a causal
convolution of kernel size `k` may read when producing output `t`. -/
def windowAt (k : Nat) (xs : List Vec) (t : Nat) : List Vec := takeLast k (xs.take (t + 1))

/-- Full-sequence causal convolution.  `LinearizedConv1d` pads with
`kernel_size - 1` on both sides and `conv.remove_future_timesteps` then
drops the trailing `kernel_size - 1` outputs, so output `t` of the composite
is exactly the kernel applied to the causal window ending at `t`.  The
kernel itself (`f`, mapping a window — most recent input last, windows
shorter than `k` standing for implicit zero left-padding — to the
doubled-channel output, bias included) is a learned parameter and stays
abstract. -/
def convFull (k : Nat) (f : List Vec → Vec) (xs : List Vec) : List Vec :=
  (List.range xs.length).map (fun t => f (windowAt k xs t))

/-- `AttentionLayer` of fconv.py: the two weight-normalized projections are
abstract learned parameters. -/
structure AttentionLayer where
  in_projection : Vec → Vec
  out_projection : Vec → Vec

/-- `AttentionLayer.forward(x, target_embedding, encoder_out)` on one query
position of one batch element.  `sq` models `math.sqrt`, `e` the
exponential inside `F.softmax`.  `encoder_out.1` is the pre-transposed
`C x S` first component (`encoder_a`), `encoder_out.2` the `S x C` second
component (`encoder_b`).  Returns the updated hidden state and the
normalized attention-weight row. -/
def AttentionLayer.forward (sq e : ℚ → ℚ) (A : AttentionLayer)
    (x target_embedding : Vec) (encoder_out : Mat × Mat) : Vec × Vec :=
  let residual := x
  let x1 := scaleVec (sq (1 / 2)) (vadd (A.in_projection x) target_embedding)
  let scores := rowVecMul x1 encoder_out.1
  let attn_scores := softmaxRow e scores
  let x2 := rowVecMul attn_scores encoder_out.2
  let s : ℚ := (encoder_out.2.length : ℚ)
  let x3 := scaleVec (s * sq (1 / s)) x2
  (scaleVec (sq (1 / 2)) (vadd (A.out_projection x3) residual), attn_scores)

/-- One decoder layer of `FConvDecoder.__init__`: the optional residual
projection (`Linear` when the channel widths differ), the kernel size and
kernel of the `LinearizedConv1d`, and the optional `AttentionLayer`
(the `None` entries of the `self.attention` ModuleList are `none`). -/
structure DecoderLayer where
  proj : Option (Vec → Vec)
  kernel_size : Nat
  conv : List Vec → Vec
  attention : Option AttentionLayer

/-- The decoder model: embedding tables, the weight-normalized linear
layers `fc1`/`fc2`/`fc3`, the layer stack, plus the scalar primitives
(`math.sqrt`, softmax's exp, glu's sigmoid) and the evaluation-time
dropout map. -/
structure FConvDecoder where
  embed_tokens : Nat → Vec
  embed_positions : Nat → Vec
  drop : Vec → Vec
  fc1 : Vec → Vec
  layers : List DecoderLayer
  fc2 : Vec → Vec
  fc3 : Vec → Vec
  sqrtQ : ℚ → ℚ
  expQ : ℚ → ℚ
  sig : ℚ → ℚ

/-- `FConvDecoder._split_encoder_out`.  The incremental-state slot
`'encoder_out'` is passed in explicitly (`none` outside incremental
inference, where `get_incremental_state` always reports a miss).  When the
cache holds a pair it is returned as is — the supplied `encoder_out` is not
consulted; on a miss, `encoder_a` is transposed and the pair is stored.
Returns the pair used and the new cache contents. -/
def split_encoder_out (cache : Option (Mat × Mat)) (encoder_out : Mat × Mat) :
    (Mat × Mat) × Option (Mat × Mat) :=
  match cache with
  | some c => (c, some c)
  | none =>
      let r := (transposeM encoder_out.1, encoder_out.2)
      (r, some r)

/-- Residual branch of a decoder layer:
`residual = x if proj is None else proj(x)`. -/
def layerResidual (l : DecoderLayer) (x : List Vec) : List Vec :=
  match l.proj with
  | none => x
  | some p => x.map p

/-- Dropout, causal convolution, future-timestep removal and GLU of one
decoder layer in full-sequence mode. -/
def layerConvOut (M : FConvDecoder) (l : DecoderLayer) (x : List Vec) : List Vec :=
  (convFull l.kernel_size l.conv (x.map M.drop)).map (glu M.sig)

/-- The per-position results of this layer's `AttentionLayer` in
full-sequence mode: `attention(x, target_embedding, (encoder_a, encoder_b))`
applied at every target position. -/
def layerAttnPairs (M : FConvDecoder) (encab : Mat × Mat) (temb : List Vec)
    (A : AttentionLayer) (l : DecoderLayer) (x : List Vec) : List (Vec × Vec) :=
  List.zipWith (fun xt tt => AttentionLayer.forward M.sqrtQ M.expQ A xt tt encab)
    (layerConvOut M l x) temb

/-- The output stream of one decoder layer in full-sequence mode:
conv/GLU, optional attention, then `(x + residual) * math.sqrt(0.5)`. -/
def layerOutFull (M : FConvDecoder) (encab : Mat × Mat) (temb : List Vec)
    (l : DecoderLayer) (x : List Vec) : List Vec :=
  let xg := layerConvOut M l x
  let xa :=
    match l.attention with
    | none => xg
    | some A => (layerAttnPairs M encab temb A l x).map Prod.fst
  List.zipWith (fun a r => scaleVec (M.sqrtQ (1 / 2)) (vadd a r)) xa (layerResidual l x)

/-- The raw (pre-averaging) attention-weight rows produced by one
attention-bearing layer in full-sequence mode. -/
def layerScoresRaw (M : FConvDecoder) (encab : Mat × Mat) (temb : List Vec)
    (A : AttentionLayer) (l : DecoderLayer) (x : List Vec) : List Vec :=
  (layerAttnPairs M encab temb A l x).map Prod.snd

/-- `attn_scores / num_attn_layers` on one attention row. -/
def divRow (n : Nat) (r : Vec) : Vec := r.map (fun q => q / (n : ℚ))

/-- Pointwise addition of two attention rows (`avg_attn_scores.add_`). -/
def addRow (a b : Vec) : Vec := List.zipWith (fun p q => p + q) a b

/-- Accumulation of scaled attention scores into `avg_attn_scores` in
full-sequence mode (`None` on the first attention layer, in-place add
afterwards). -/
def accMat (avg : Option (List Vec)) (s : List Vec) : List Vec :=
  match avg with
  | none => s
  | some a => List.zipWith addRow a s

/-- Accumulation of scaled attention scores in incremental mode (a single
row per step). -/
def accRow (avg : Option Vec) (s : Vec) : Vec :=
  match avg with
  | none => s
  | some a => addRow a s

/-- The `avg_attn_scores` update of one decoder layer in full-sequence
mode: untouched for a layer without attention, otherwise the layer's rows
scaled by `1 / num_attn_layers` are accumulated. -/
def layerAvgFull (M : FConvDecoder) (encab : Mat × Mat) (temb : List Vec) (n : Nat)
    (l : DecoderLayer) (x : List Vec) (avg : Option (List Vec)) : Option (List Vec) :=
  match l.attention with
  | none => avg
  | some A => some (accMat avg ((layerScoresRaw M encab temb A l x).map (divRow n)))

/-- The decoder layer loop of `FConvDecoder.forward` in full-sequence mode.
`n` is `num_attn_layers = len(self.attention)`, fixed before the loop. -/
def runLayersFull (M : FConvDecoder) (encab : Mat × Mat) (temb : List Vec) (n : Nat) :
    List DecoderLayer → List Vec → Option (List Vec) → List Vec × Option (List Vec)
  | [], x, avg => (x, avg)
  | l :: ls, x, avg =>
      runLayersFull M encab temb n ls (layerOutFull M encab temb l x)
        (layerAvgFull M encab temb n l x avg)

/-- The target-embedding anchor of full-sequence mode:
`dropout(embed_tokens(input_tokens) + embed_positions(input_tokens))`. -/
def tembOf (M : FConvDecoder) (input_tokens : List Nat) : List Vec :=
  List.zipWith (fun i tok => M.drop (vadd (M.embed_tokens tok) (M.embed_positions i)))
    (List.range input_tokens.length) input_tokens

/-- `fc1` applied to the target-embedding anchor. -/
def x0Of (M : FConvDecoder) (input_tokens : List Nat) : List Vec :=
  (tembOf M input_tokens).map M.fc1

/-- The split/transposed encoder pair as computed on an incremental-state
miss (and hence on every full-sequence call). -/
def encabOf (enc : Mat × Mat) : Mat × Mat := (split_encoder_out none enc).1

/-- `FConvDecoder.forward` in full-sequence mode (`_is_incremental_eval`
false): split encoder outputs, embed tokens and positions, `fc1`, the layer
stack, then `fc2`, dropout, `fc3`.  Returns the per-position vocabulary
logits and the averaged attention scores (`None` when no layer has
attention). -/
def FConvDecoder.forwardFull (M : FConvDecoder) (enc : Mat × Mat)
    (input_tokens : List Nat) : List Vec × Option (List Vec) :=
  let encab := encabOf enc
  let temb := tembOf M input_tokens
  let x0 := x0Of M input_tokens
  let r := runLayersFull M encab temb M.layers.length M.layers x0 none
  (r.1.map (fun v => M.fc3 (M.drop (M.fc2 v))), r.2)

/-- The incremental state of the decoder: the `'encoder_out'` slot of
`_split_encoder_out` plus, per layer, the input history buffer of its
`LinearizedConvolution`.  Modelled from the spec where the buffer mechanics
live outside `src/` (`fairseq.modules.LinearizedConvolution`): the history
holds the layer's past post-dropout inputs, enough to rebuild the causal
window of the next step. -/
structure IncState where
  encoder_cache : Option (Mat × Mat)
  conv_hists : List (List Vec)

/-- One decoder layer applied to the newest position in incremental mode:
same residual/dropout/conv/GLU/attention/residual-add path as full mode,
with the convolution reading the causal window from its history buffer.
Returns the new hidden vector, the updated attention accumulator and the
extended history. -/
def layerStepInc (M : FConvDecoder) (encab : Mat × Mat) (temb : Vec) (n : Nat)
    (l : DecoderLayer) (hist : List Vec) (x : Vec) (avg : Option Vec) :
    Vec × Option Vec × List Vec :=
  let residual :=
    match l.proj with
    | none => x
    | some p => p x
  let xd := M.drop x
  let hist' := hist ++ [xd]
  let xg := glu M.sig (l.conv (takeLast l.kernel_size hist'))
  let r :=
    match l.attention with
    | none => (xg, avg)
    | some A =>
        let pr := AttentionLayer.forward M.sqrtQ M.expQ A xg temb encab
        (pr.1, some (accRow avg (divRow n pr.2)))
  (scaleVec (M.sqrtQ (1 / 2)) (vadd r.1 residual), r.2, hist')

/-- The decoder layer loop of `FConvDecoder.forward` in incremental mode,
threading the per-layer histories. -/
def runLayersInc (M : FConvDecoder) (encab : Mat × Mat) (temb : Vec) (n : Nat) :
    List DecoderLayer → List (List Vec) → Vec → Option Vec →
      Vec × Option Vec × List (List Vec)
  | [], _, x, avg => (x, avg, [])
  | l :: ls, hs, x, avg =>
      let r := layerStepInc M encab temb n l (hs.headD []) x avg
      let rest := runLayersInc M encab temb n ls hs.tail r.1 r.2.1
      (rest.1, rest.2.1, r.2.2 :: rest.2.2)

/-- `FConvDecoder.forward` in incremental mode (`_is_incremental_eval`
true) on one step: split encoder outputs through the cache, keep only the
last token (`input_tokens[:, -1:]`) with the positional embedding of its
position (`LearnedPositionalEmbedding`, not under `src/`, is modelled from
the spec: in incremental mode it yields the position of the newest token
only), then the same fc1/layers/fc2/fc3 path on the single position. -/
def FConvDecoder.forwardStep (M : FConvDecoder) (enc : Mat × Mat)
    (input_tokens : List Nat) (st : IncState) : (Vec × Option Vec) × IncState :=
  let sp := split_encoder_out st.encoder_cache enc
  let t := input_tokens.length - 1
  let tok := input_tokens.getLast?.getD 0
  let temb := M.drop (vadd (M.embed_tokens tok) (M.embed_positions t))
  let x0 := M.fc1 temb
  let r := runLayersInc M sp.1 temb M.layers.length M.layers st.conv_hists x0 none
  ((M.fc3 (M.drop (M.fc2 r.1)), r.2.1), ⟨sp.2, r.2.2⟩)

/-- `n` incremental steps starting after position `p`: step `i` receives
the token prefix `ts.take (p + i + 1)`, exactly as a generator feeds the
growing target history to `FConvDecoder.forward`. -/
def runSteps (M : FConvDecoder) (enc : Mat × Mat) (ts : List Nat) :
    Nat → Nat → IncState → List (Vec × Option Vec)
  | _, 0, _ => []
  | p, Nat.succ n, st =>
      let r := FConvDecoder.forwardStep M enc (ts.take (p + 1)) st
      r.1 :: runSteps M enc ts (p + 1) n r.2

/-- A whole incremental generation run over the target prefix `ts`: one
step per token, starting from the empty incremental state (no cached
encoder pair, empty convolution histories). -/
def forwardIncrementalRun (M : FConvDecoder) (enc : Mat × Mat) (ts : List Nat) :
    List (Vec × Option Vec) :=
  runSteps M enc ts 0 ts.length ⟨none, M.layers.map (fun _ => [])⟩

/-- The `attention` argument of `FConvDecoder.__init__`: a Python bool, a
Python list of booleans, or any other value. -/
inductive AttentionArg
  | bool (b : Bool)
  | list (l : List Bool)
  | other

/-- The message of the `ValueError` raised by `FConvDecoder.__init__` for a
malformed `attention` argument. -/
def attentionLengthError : String :=
  "Attention is expected to be a list of booleans of length equal to the number of layers."

/-- The broadcast step of `FConvDecoder.__init__`:
`if isinstance(attention, bool): attention = [attention] * len(convolutions)`. -/
def expandAttention (num_layers : Nat) (a : AttentionArg) : AttentionArg :=
  match a with
  | .bool b => .list (List.replicate num_layers b)
  | x => x

/-- The `attention` validation of `FConvDecoder.__init__`: broadcast a bool,
then `raise ValueError` unless the result is a list whose length equals the
number of decoder convolution layers. -/
def validateAttention (num_layers : Nat) (a : AttentionArg) : Except String (List Bool) :=
  match expandAttention num_layers a with
  | .list l =>
      if l.length = num_layers then Except.ok l else Except.error attentionLengthError
  | _ => Except.error attentionLengthError

/-- The message of the assertion raised by `FConvDecoder.__init__` when
`share_embed` is set with mismatched widths. -/
def sharedEmbedError : String := "Shared embed weights implies same dimensions"

/-- Weight storage, for observing the aliasing of `fc3.weight` and
`embed_tokens.weight`: a map from weight-object identity to the flattened
entries of that weight. -/
abbrev WeightStore := Nat → Nat → ℚ

/-- Mutate entry `idx` of the weight object `wid`. -/
def writeW (s : WeightStore) (wid idx : Nat) (v : ℚ) : WeightStore :=
  fun w i => if w = wid ∧ i = idx then v else s w i

/-- The token-embedding lookup reads row `tok` of the embedding weight. -/
def embedLookup (s : WeightStore) (wid tok : Nat) : ℚ := s wid tok

/-- The vocabulary projection `fc3` reads row `row` of its weight. -/
def fc3Row (s : WeightStore) (wid row : Nat) : ℚ := s wid row

/-- The tail of `FConvDecoder.__init__`: with `share_embed` the assertion
`out_embed_dim == embed_dim` must hold and `fc3.weight` becomes the very
embedding weight object; otherwise `fc3` gets a fresh weight.  Weights are
named by identity (`embed_weight_id` for `embed_tokens.weight`,
`fresh_weight_id` for a newly constructed `Linear`'s weight). -/
def buildFc3 (share_embed : Bool) (embed_dim out_embed_dim : Nat)
    (embed_weight_id fresh_weight_id : Nat) : Except String Nat :=
  if share_embed then
    if out_embed_dim = embed_dim then Except.ok embed_weight_id
    else Except.error sharedEmbedError
  else Except.ok fresh_weight_id

/-- The weight-normalization axis used at construction for the decoder
convolutions: `LinearizedConv1d` ends with `nn.utils.weight_norm(m, dim=2)`. -/
def constructionWeightNormDim : Nat := 2

/-- The version buffer registered by `FConvDecoder.__init__`:
`self.register_buffer('version', torch.Tensor([2]))`. -/
def decoderCurrentVersion : ℚ := 2

/-- The slice of a persisted decoder state that
`FConvDecoder.upgrade_state_dict` interacts with: the `'decoder.version'`
entry (absent in very old states) and, per decoder convolution, the axis
along which its weight-normalization parameters are derived. -/
structure DecoderStateDict where
  version : Option ℚ
  conv_wn_dims : List Nat

/-- `FConvDecoder.upgrade_state_dict`: when
`state_dict.get('decoder.version', torch.Tensor([1]))[0] < 2`, remove and
re-apply weight normalization with `dim=0` on every decoder convolution and
set `state_dict['decoder.version']` to `torch.Tensor([1])`; otherwise leave
the state untouched. -/
def upgrade_state_dict (sd : DecoderStateDict) : DecoderStateDict :=
  if sd.version.getD 1 < 2 then
    ⟨some 1, sd.conv_wn_dims.map (fun _ => 0)⟩
  else sd

/-- `FConvModel.__init__`:
`encoder.num_attention_layers = sum(layer is not None for layer in decoder.attention)`
— the count of attention-bearing decoder layers. -/
def countAttentionLayers (attn : List Bool) : Nat := (attn.filter (fun b => b)).length

/-- The error Python raises for `1.0 / (2.0 * 0)`. -/
def divisionByZeroError : String := "ZeroDivisionError: float division by zero"

/-- The scale `1.0 / (2.0 * self.num_attention_layers)` computed by
`FConvEncoder.forward`, with Python's float division-by-zero failure made
explicit. -/
def encoderGradScale (num_attention_layers : Nat) : Except String ℚ :=
  if num_attention_layers = 0 then Except.error divisionByZeroError
  else Except.ok (1 / (2 * (num_attention_layers : ℚ)))

/-- Modelled from the spec: `GradMultiply` (in `fairseq.modules`, not under
`src/`) is a forward-identity autograd node — "Gradient-scaling must leave
forward values bit-identical to an unscaled pass".  Applied pointwise to
one tensor entry. -/
def gradMultiplyForward (_scale x : ℚ) : ℚ := x

/-- Modelled from the spec: the backward pass of `GradMultiply` multiplies
the incoming gradient by the given scale ("multiply backward gradient
flowing into this tensor by 1 / (2 * num_attention_layers)").  Applied
pointwise to one gradient entry. -/
def gradMultiplyBackward (scale g : ℚ) : ℚ := scale * g

/-- The gradient-scaling step of `FConvEncoder.forward` on one entry of
`x` (= `context_a`): compute the scale, then apply `GradMultiply`'s forward
pass. -/
def encoderForwardScaled (num_attention_layers : Nat) (x : ℚ) : Except String ℚ :=
  (encoderGradScale num_attention_layers).map (fun s => gradMultiplyForward s x)

/-! ### Ghost state and concrete instances used by the theorems -/

/-- The specification of the per-layer convolution histories after `t`
incremental steps: layer by layer, the first `t` post-dropout inputs of the
full-sequence stream feeding that layer's convolution. -/
def histsSpec (M : FConvDecoder) (encab : Mat × Mat) (temb : List Vec) :
    List DecoderLayer → List Vec → Nat → List (List Vec)
  | [], _, _ => []
  | l :: ls, x, t =>
      ((x.map M.drop).take t)
        :: histsSpec M encab temb ls (layerOutFull M encab temb l x) t

/-- A first encoder pair, with `context_a` of shape `2 x 1`. -/
def cexEncPairA : Mat × Mat := ([[1], [2]], [[3]])

/-- A second, different encoder pair supplied to the same decoder. -/
def cexEncPairB : Mat × Mat := ([[5], [6]], [[3]])

/-- A concrete attention layer with identity projections. -/
def cexAttn : AttentionLayer := ⟨fun v => v, fun v => v⟩

/-- First decoder layer of the two-layer counterexample model: kernel size
1, channel-doubling kernel, attention present. -/
def cexLayer1 : DecoderLayer :=
  ⟨none, 1, fun w => w.headD [] ++ w.headD [], some cexAttn⟩

/-- Second decoder layer of the counterexample model: no attention. -/
def cexLayer2 : DecoderLayer :=
  ⟨none, 1, fun w => w.headD [] ++ w.headD [], none⟩

/-- A two-layer decoder with `attention=[True, False]` and transparent
parameters. -/
def cexDecoder : FConvDecoder :=
  ⟨fun _ => [1], fun _ => [0], fun v => v, fun v => v, [cexLayer1, cexLayer2],
    fun v => v, fun v => v, fun _ => 1, fun _ => 1, fun _ => 1⟩

/-- A one-position encoder output pair for the counterexample model. -/
def cexEnc : Mat × Mat := ([[1]], [[1]])

/-! ### List helper lemmas -/

lemma getD_map_of_lt (f : α → β) (l : List α) (t : Nat) (d : α) (d' : β)
    (h : t < l.length) : (l.map f).getD t d' = f (l.getD t d) := by
  rw [List.getD_eq_getElem _ _ (by simpa using h), List.getD_eq_getElem _ _ h,
    List.getElem_map]

lemma getD_zipWith_of_lt (f : α → β → γ) (l1 : List α) (l2 : List β) (t : Nat)
    (d1 : α) (d2 : β) (d : γ) (h1 : t < l1.length) (h2 : t < l2.length) :
    (List.zipWith f l1 l2).getD t d = f (l1.getD t d1) (l2.getD t d2) := by
  have h : t < (List.zipWith f l1 l2).length := by
    rw [List.length_zipWith]; omega
  rw [List.getD_eq_getElem _ _ h, List.getD_eq_getElem _ _ h1,
    List.getD_eq_getElem _ _ h2, List.getElem_zipWith]

lemma getD_range_of_lt (n t : Nat) (h : t < n) : (List.range n).getD t 0 = t := by
  rw [List.getD_eq_getElem _ _ (by simpa using h), List.getElem_range]

lemma take_concat_getD (l : List α) (t : Nat) (d : α) (h : t < l.length) :
    l.take t ++ [l.getD t d] = l.take (t + 1) := by
  rw [List.getD_eq_getElem _ _ h, ← List.concat_eq_append]
  exact List.take_concat_get l t h

lemma getLast?_take_getD (l : List α) (t : Nat) (d : α) (h : t < l.length) :
    (l.take (t + 1)).getLast?.getD d = l.getD t d := by
  rw [← take_concat_getD l t d h, List.getLast?_concat]
  rfl

lemma sum_map_div (l : List ℚ) (f : ℚ → ℚ) (c : ℚ) :
    (l.map (fun a => f a / c)).sum = (l.map f).sum / c := by
  induction l with
  | nil => simp
  | cons h t ih => simp [ih, add_div]

lemma filter_replicate_false (n : Nat) :
    (List.replicate n false).filter (fun b => b) = [] := by
  induction n with
  | zero => rfl
  | succ n ih => simp [List.replicate_succ, ih]

/-! ### C6: attention-argument validation -/

/-- Claim C6: `FConvDecoder.__init__` accepts a single boolean attention
flag (broadcast to a per-layer list of the right length) or a boolean list
whose length equals the number of layers, and raises the `ValueError` if
and only if the argument is neither of those; a successful result always
has exactly one entry per layer and reproduces a supplied list verbatim —
no truncation or padding. -/
theorem fconv_decoder_attention_validation (n : Nat) (a : AttentionArg) :
    ((∃ msg, validateAttention n a = Except.error msg)
        ↔ ¬((∃ b, a = AttentionArg.bool b)
            ∨ (∃ l, a = AttentionArg.list l ∧ l.length = n)))
    ∧ (∀ res, validateAttention n a = Except.ok res →
        res.length = n ∧ ∀ l, a = AttentionArg.list l → res = l) := by
  constructor
  · cases a with
    | bool b =>
        simp [validateAttention, expandAttention]
    | list l =>
        by_cases hl : l.length = n <;>
          simp [validateAttention, expandAttention, hl]
    | other =>
        simp [validateAttention, expandAttention]
  · intro res hres
    cases a with
    | bool b =>
        simp only [validateAttention, expandAttention, List.length_replicate,
          if_true, eq_self_iff_true, Except.ok.injEq] at hres
        subst hres
        exact ⟨List.length_replicate _ _, fun l hl => by cases hl⟩
    | list l =>
        by_cases hl : l.length = n
        · simp only [validateAttention, expandAttention, hl, if_true,
            eq_self_iff_true, Except.ok.injEq] at hres
          subst hres
          exact ⟨hl, fun l' hl' => by cases hl'; rfl⟩
        · simp [validateAttention, expandAttention, hl] at hres
    | other => simp [validateAttention, expandAttention] at hres

/-- Witness for C6: a bool is broadcast to a list of one entry per layer,
a correct-length list is taken verbatim, and a wrong-length list is an
error. -/
theorem fconv_decoder_attention_validation_witness :
    (¬((∃ b, AttentionArg.list [true] = AttentionArg.bool b)
        ∨ (∃ l, AttentionArg.list [true] = AttentionArg.list l ∧ l.length = 3)))
    ∧ (∃ msg, validateAttention 3 (AttentionArg.list [true]) = Except.error msg)
    ∧ (validateAttention 2 (AttentionArg.list [true, false]) = Except.ok [true, false]
        → [true, false] = [true, false]) := by
  refine ⟨by simp, ?_, ?_⟩
  · exact (fconv_decoder_attention_validation 3 (AttentionArg.list [true])).1.mpr
      (by simp)
  · intro h
    exact ((fconv_decoder_attention_validation 2
      (AttentionArg.list [true, false])).2 [true, false] h).2 [true, false] rfl

/-! ### C7: tied input/output embeddings -/

/-- Claim C7: with `share_embed=True`, `FConvDecoder.__init__` fails unless
`out_embed_dim == embed_dim`; when it succeeds, `fc3.weight` is the very
same object as `embed_tokens.weight`, so a mutation of the shared weight is
observed both by the token-embedding lookup and by the vocabulary
projection. -/
theorem fconv_decoder_shared_embed (ed od eid fid tok : Nat) (s : WeightStore)
    (v : ℚ) (hne : od ≠ ed) :
    buildFc3 true ed od eid fid = Except.error sharedEmbedError
    ∧ buildFc3 true ed ed eid fid = Except.ok eid
    ∧ (∀ w, buildFc3 true ed ed eid fid = Except.ok w →
        embedLookup (writeW s eid tok v) eid tok = v
        ∧ fc3Row (writeW s eid tok v) w tok = v) := by
  refine ⟨by simp [buildFc3, hne], by simp [buildFc3], ?_⟩
  intro w hw
  simp only [buildFc3, if_true, eq_self_iff_true, Bool.true_eq, Except.ok.injEq] at hw
  subst hw
  exact ⟨by simp [embedLookup, writeW], by simp [fc3Row, writeW]⟩

/-- Witness for C7 at concrete dimensions and weight identities. -/
theorem fconv_decoder_shared_embed_witness :
    buildFc3 true 8 4 0 1 = Except.error sharedEmbedError
    ∧ buildFc3 true 8 8 0 1 = Except.ok 0
    ∧ embedLookup (writeW (fun _ _ => 0) 0 5 7) 0 5 = 7
    ∧ fc3Row (writeW (fun _ _ => 0) 0 5 7) 0 5 = 7 := by
  have h := fconv_decoder_shared_embed 8 4 0 1 5 (fun _ _ => 0) 7 (by decide)
  exact ⟨h.1, h.2.1, (h.2.2 0 h.2.1).1, (h.2.2 0 h.2.1).2⟩

/-! ### C3: versioned-state migration -/

/-- Counterexample to claim C3: on a version-0 state whose convolutions
carry the construction-time weight-norm axis, `upgrade_state_dict`
re-derives along axis 0 — not the construction axis 2 of
`LinearizedConv1d` — and stamps `decoder.version` with 1, not the current
version 2; the stamped state still satisfies the `< 2` guard, so a second
load re-runs the re-derivation instead of performing none. -/
theorem fconv_upgrade_state_dict_cex :
    (upgrade_state_dict ⟨some 0, [constructionWeightNormDim]⟩).conv_wn_dims = [0]
    ∧ constructionWeightNormDim = 2
    ∧ (upgrade_state_dict ⟨some 0, [constructionWeightNormDim]⟩).version = some 1
    ∧ (upgrade_state_dict ⟨some 0, [constructionWeightNormDim]⟩).version
        ≠ some decoderCurrentVersion
    ∧ ((upgrade_state_dict ⟨some 0, [constructionWeightNormDim]⟩).version.getD 1 < 2) := by
  refine ⟨by decide, rfl, by decide, by decide, by decide⟩

/-- Amended C3: for every state whose version tag (defaulting to 1 when
absent) is below 2, `upgrade_state_dict` re-derives every convolution's
weight normalization along axis 0 — which differs from the construction
axis 2 — and stamps the state with version 1, not the current version 2;
the upgraded state still satisfies the migration guard, so each further
load re-runs the re-derivation. -/
theorem fconv_upgrade_state_dict_amended (sd : DecoderStateDict)
    (h : sd.version.getD 1 < 2) :
    upgrade_state_dict sd = ⟨some 1, sd.conv_wn_dims.map (fun _ => 0)⟩
    ∧ (upgrade_state_dict sd).version = some 1
    ∧ ((upgrade_state_dict sd).version.getD 1 < 2)
    ∧ (∀ d, d ∈ (upgrade_state_dict sd).conv_wn_dims → d ≠ constructionWeightNormDim) := by
  refine ⟨by simp [upgrade_state_dict, h], by simp [upgrade_state_dict, h], ?_, ?_⟩
  · simp only [upgrade_state_dict, if_pos h]
    norm_num
  · simp only [upgrade_state_dict, if_pos h]
    intro d hd
    simp only [List.mem_map] at hd
    obtain ⟨_, _, hd⟩ := hd
    simp [← hd, constructionWeightNormDim]

/-- Witness for the amended C3: a state with no version entry (the default
tag 1 applies) and two construction-axis convolutions. -/
theorem fconv_upgrade_state_dict_amended_witness :
    ((none : Option ℚ).getD 1 < 2)
    ∧ upgrade_state_dict ⟨none, [2, 2]⟩ = ⟨some 1, [0, 0]⟩ := by
  refine ⟨by decide, ?_⟩
  have h := fconv_upgrade_state_dict_amended ⟨none, [2, 2]⟩ (by decide)
  simpa using h.1

/-! ### C4: encoder-output cache of `_split_encoder_out` -/

/-- Counterexample to claim C4: after a first call caches the split of
pair A, a call supplying the new, not-yet-cached pair B returns the stale
cached split of A rather than invalidating the cache and recomputing from
B. -/
theorem fconv_split_encoder_out_cex :
    (split_encoder_out (split_encoder_out none cexEncPairA).2 cexEncPairB).1
        = (transposeM cexEncPairA.1, cexEncPairA.2)
    ∧ (split_encoder_out (split_encoder_out none cexEncPairA).2 cexEncPairB).1
        ≠ (transposeM cexEncPairB.1, cexEncPairB.2) := by
  decide

/-- Amended C4: the transposed, contiguous copy of `context_a` is computed
at most once per generation run — whenever the incremental cache already
holds a pair, `_split_encoder_out` returns that pair unchanged regardless
of the encoder output supplied, including a new, not-yet-cached pair, which
does not invalidate the cache; the transposed copy is computed exactly when
the cache is empty (a fresh generation run), and is then stored. -/
theorem fconv_split_encoder_out_amended (c e e' : Mat × Mat) :
    split_encoder_out (some c) e' = (c, some c)
    ∧ split_encoder_out none e
        = ((transposeM e.1, e.2), some (transposeM e.1, e.2)) :=
  ⟨rfl, rfl⟩

/-! ### C5: encoder gradient scaling -/

/-- Claim C5: with at least one attention-bearing decoder layer, the
encoder's gradient scale is exactly `1 / (2 * num_attention_layers)` where
`num_attention_layers` counts the decoder layers with attention (as
recorded by `FConvModel.__init__`); the forward value of `context_a` is
unchanged relative to an unscaled pass, and the backward gradient is
multiplied by exactly that factor. -/
theorem fconv_encoder_gradient_scaling (attn : List Bool) (x g : ℚ)
    (h : 0 < countAttentionLayers attn) :
    encoderGradScale (countAttentionLayers attn)
        = Except.ok (1 / (2 * (countAttentionLayers attn : ℚ)))
    ∧ encoderForwardScaled (countAttentionLayers attn) x = Except.ok x
    ∧ gradMultiplyBackward (1 / (2 * (countAttentionLayers attn : ℚ))) g
        = g / (2 * (countAttentionLayers attn : ℚ)) := by
  have hz : countAttentionLayers attn ≠ 0 := by omega
  refine ⟨by simp [encoderGradScale, hz], ?_, ?_⟩
  · simp [encoderForwardScaled, encoderGradScale, hz, gradMultiplyForward, Except.map]
  · rw [gradMultiplyBackward, div_mul_eq_mul_div, one_mul]

/-- Witness for C5 on a decoder whose first of two layers has attention. -/
theorem fconv_encoder_gradient_scaling_witness :
    0 < countAttentionLayers [true, false]
    ∧ encoderForwardScaled (countAttentionLayers [true, false]) 9 = Except.ok 9
    ∧ gradMultiplyBackward (1 / (2 * (countAttentionLayers [true, false] : ℚ))) 6
        = 6 / (2 * (countAttentionLayers [true, false] : ℚ)) := by
  have h := fconv_encoder_gradient_scaling [true, false] 9 6 (by decide)
  exact ⟨by decide, h.2.1, h.2.2⟩

/-! ### C10: the all-False attention configuration -/

/-- Claim C10: `attention=False` is accepted by construction (broadcast to
an all-`False` list of one entry per layer), `FConvModel.__init__` then
records `num_attention_layers = 0` on the encoder, and every
`FConvEncoder.forward` call fails computing `1.0 / (2.0 * 0)` with a
division by zero instead of returning encoder outputs. -/
theorem fconv_all_false_attention_unusable (n : Nat) (x : ℚ) :
    validateAttention n (AttentionArg.bool false)
        = Except.ok (List.replicate n false)
    ∧ countAttentionLayers (List.replicate n false) = 0
    ∧ encoderForwardScaled (countAttentionLayers (List.replicate n false)) x
        = Except.error divisionByZeroError := by
  have hc : countAttentionLayers (List.replicate n false) = 0 := by
    simp [countAttentionLayers, filter_replicate_false]
  refine ⟨by simp [validateAttention, expandAttention], hc, ?_⟩
  rw [hc]
  simp [encoderForwardScaled, encoderGradScale, Except.map]

/-! ### C9: attention weights sum to one -/

/-- The attention weights of one query position sum to 1 whenever the
exponential is positive and the score row is nonempty. -/
lemma softmaxRow_sum (e : ℚ → ℚ) (r : Vec) (he : ∀ q, 0 < e q) (hr : r ≠ []) :
    (softmaxRow e r).sum = 1 := by
  have hpos : 0 < (r.map e).sum := by
    apply List.sum_pos
    · intro a ha
      obtain ⟨b, _, hb⟩ := List.mem_map.mp ha
      exact hb ▸ he b
    · simpa using hr
  rw [softmaxRow, sum_map_div]
  exact div_self (ne_of_gt hpos)

/-- Claim C9: for every query position, the attention weights returned by
`AttentionLayer.forward` are the softmax of the raw scores over the
source-position axis, and they sum to 1 across that axis (for every batch
element and query position: `forward` here is the per-position map).  The
hypotheses say that the exponential underlying `F.softmax` is positive and
that there is at least one source position. -/
theorem fconv_attention_weights_sum_to_one (sq e : ℚ → ℚ) (A : AttentionLayer)
    (x temb : Vec) (enc : Mat × Mat) (he : ∀ q, 0 < e q)
    (hs : transposeM enc.1 ≠ []) :
    (AttentionLayer.forward sq e A x temb enc).2
        = softmaxRow e (rowVecMul (scaleVec (sq (1 / 2)) (vadd (A.in_projection x) temb))
            enc.1)
    ∧ ((AttentionLayer.forward sq e A x temb enc).2).sum = 1 := by
  refine ⟨rfl, ?_⟩
  apply softmaxRow_sum _ _ he
  simp only [rowVecMul, ne_eq, List.map_eq_nil_iff]
  exact hs

/-- Witness for C9 with a constant positive exponential and a one-position
source. -/
theorem fconv_attention_weights_sum_to_one_witness :
    (∀ q : ℚ, 0 < (fun _ : ℚ => (1 : ℚ)) q)
    ∧ transposeM ([[1], [2]] : Mat) ≠ []
    ∧ ((AttentionLayer.forward (fun q => q) (fun _ => 1) ⟨fun v => v, fun v => v⟩
          [1, 0] [1, 1] ([[1], [2]], [[3], [4]])).2).sum = 1 := by
  refine ⟨fun _ => one_pos, by decide, ?_⟩
  exact (fconv_attention_weights_sum_to_one (fun q => q) (fun _ => 1)
    ⟨fun v => v, fun v => v⟩ [1, 0] [1, 1] ([[1], [2]], [[3], [4]])
    (fun _ => one_pos) (by decide)).2

/-! ### C2: averaging denominator of the attention scores -/

/-- Counterexample to claim C2: in the two-layer decoder with
`attention=[True, False]`, the single attention layer produces the raw
weight row `[1]`, but `FConvDecoder.forward` divides by
`num_attn_layers = len(self.attention) = 2` — the total layer count, `None`
entries included — so the returned average is `[[1/2]]`, not the claimed
single-layer scores divided by 1. -/
theorem fconv_attention_average_cex :
    layerScoresRaw cexDecoder (encabOf cexEnc) (tembOf cexDecoder [0]) cexAttn
        cexLayer1 (x0Of cexDecoder [0]) = [[1]]
    ∧ (FConvDecoder.forwardFull cexDecoder cexEnc [0]).2 = some [[(1 : ℚ) / 2]]
    ∧ (FConvDecoder.forwardFull cexDecoder cexEnc [0]).2 ≠ some [[(1 : ℚ)]] := by
  norm_num [FConvDecoder.forwardFull, runLayersFull, layerAvgFull, layerScoresRaw,
    layerAttnPairs,
    layerConvOut, layerOutFull, layerResidual, AttentionLayer.forward, softmaxRow,
    rowVecMul, transposeM, dot, scaleVec, vadd, glu, convFull, windowAt, takeLast,
    encabOf, tembOf, x0Of, divRow, addRow, accMat, split_encoder_out,
    cexDecoder, cexLayer1, cexLayer2, cexAttn, cexEnc, List.range_succ]

/-- Amended C2: each attention-bearing layer's scores are accumulated into
the returned average scaled by `1 / num_attn_layers` where
`num_attn_layers = len(self.attention)` counts every decoder layer, the
`None` (non-attention) entries included; in particular, for a two-layer
decoder with `attention=[True, False]` the returned average equals the
single attention layer's raw scores divided by 2, not by 1. -/
theorem fconv_attention_average_amended (M : FConvDecoder) (enc : Mat × Mat)
    (ts : List Nat) (l1 l2 : DecoderLayer) (A : AttentionLayer)
    (hl : M.layers = [l1, l2]) (h1 : l1.attention = some A)
    (h2 : l2.attention = none) :
    (FConvDecoder.forwardFull M enc ts).2
      = some ((layerScoresRaw M (encabOf enc) (tembOf M ts) A l1 (x0Of M ts)).map
          (divRow 2)) := by
  simp only [FConvDecoder.forwardFull, hl, List.length_cons, List.length_nil,
    runLayersFull, layerAvgFull, h1, h2, accMat]

/-- Witness for the amended C2 on the concrete two-layer model. -/
theorem fconv_attention_average_amended_witness :
    cexDecoder.layers = [cexLayer1, cexLayer2]
    ∧ cexLayer1.attention = some cexAttn
    ∧ cexLayer2.attention = none
    ∧ (FConvDecoder.forwardFull cexDecoder cexEnc [0]).2
        = some ((layerScoresRaw cexDecoder (encabOf cexEnc) (tembOf cexDecoder [0])
            cexAttn cexLayer1 (x0Of cexDecoder [0])).map (divRow 2)) :=
  ⟨rfl, rfl, rfl,
    fconv_attention_average_amended cexDecoder cexEnc [0] cexLayer1 cexLayer2 cexAttn
      rfl rfl rfl⟩

/-! ### Length bookkeeping for the decoder streams -/

lemma length_convFull (k : Nat) (f : List Vec → Vec) (xs : List Vec) :
    (convFull k f xs).length = xs.length := by
  simp [convFull]

lemma length_layerConvOut (M : FConvDecoder) (l : DecoderLayer) (x : List Vec) :
    (layerConvOut M l x).length = x.length := by
  simp [layerConvOut, length_convFull]

lemma length_layerAttnPairs (M : FConvDecoder) (encab : Mat × Mat) (temb : List Vec)
    (A : AttentionLayer) (l : DecoderLayer) (x : List Vec) :
    (layerAttnPairs M encab temb A l x).length = min x.length temb.length := by
  simp [layerAttnPairs, length_layerConvOut]

lemma length_layerResidual (l : DecoderLayer) (x : List Vec) :
    (layerResidual l x).length = x.length := by
  cases hp : l.proj <;> simp [layerResidual, hp]

lemma length_layerScoresRaw (M : FConvDecoder) (encab : Mat × Mat) (temb : List Vec)
    (A : AttentionLayer) (l : DecoderLayer) (x : List Vec)
    (h : x.length = temb.length) :
    (layerScoresRaw M encab temb A l x).length = x.length := by
  simp [layerScoresRaw, length_layerAttnPairs, h]

lemma length_layerOutFull (M : FConvDecoder) (encab : Mat × Mat) (temb : List Vec)
    (l : DecoderLayer) (x : List Vec) (h : x.length = temb.length) :
    (layerOutFull M encab temb l x).length = x.length := by
  cases ha : l.attention with
  | none =>
      simp only [layerOutFull, ha, List.length_zipWith, length_layerConvOut,
        length_layerResidual]
      omega
  | some A =>
      simp only [layerOutFull, ha, List.length_zipWith, List.length_map,
        length_layerAttnPairs, length_layerResidual, h]
      omega

lemma length_accMat (avg : Option (List Vec)) (s : List Vec) (T : Nat)
    (hs : s.length = T) (ha : ∀ a, avg = some a → a.length = T) :
    (accMat avg s).length = T := by
  cases avg with
  | none => simpa [accMat] using hs
  | some a =>
      simp only [accMat, List.length_zipWith, hs, ha a rfl]
      omega

lemma length_runLayersFull_fst (M : FConvDecoder) (encab : Mat × Mat)
    (temb : List Vec) (n : Nat) :
    ∀ (ls : List DecoderLayer) (x : List Vec) (avg : Option (List Vec)),
      x.length = temb.length →
      ((runLayersFull M encab temb n ls x avg).1).length = temb.length := by
  intro ls
  induction ls with
  | nil => intro x avg h; simpa [runLayersFull] using h
  | cons l ls ih =>
      intro x avg h
      rw [runLayersFull]
      exact ih _ _ (by rw [length_layerOutFull M encab temb l x h, h])

/-! ### Position-`t` extraction from the full-sequence streams -/

lemma layerConvOut_getD (M : FConvDecoder) (l : DecoderLayer) (x : List Vec)
    (t : Nat) (h : t < x.length) :
    (layerConvOut M l x).getD t []
      = glu M.sig (l.conv (takeLast l.kernel_size ((x.map M.drop).take (t + 1)))) := by
  rw [layerConvOut,
    getD_map_of_lt _ _ _ [] [] (by rw [length_convFull]; simpa using h)]
  congr 1
  rw [convFull,
    getD_map_of_lt _ _ _ 0 [] (by simpa using h),
    getD_range_of_lt _ _ (by simpa using h)]
  rfl

lemma layerResidual_getD (l : DecoderLayer) (x : List Vec) (t : Nat)
    (h : t < x.length) :
    (layerResidual l x).getD t []
      = (match l.proj with
         | none => x.getD t []
         | some p => p (x.getD t [])) := by
  cases hp : l.proj with
  | none => simp [layerResidual, hp]
  | some p =>
      simp only [layerResidual, hp]
      exact getD_map_of_lt p x t [] [] h

lemma layerAttnPairs_getD (M : FConvDecoder) (encab : Mat × Mat) (temb : List Vec)
    (A : AttentionLayer) (l : DecoderLayer) (x : List Vec) (t : Nat)
    (ht : t < x.length) (hlen : x.length = temb.length) :
    (layerAttnPairs M encab temb A l x).getD t ([], [])
      = AttentionLayer.forward M.sqrtQ M.expQ A ((layerConvOut M l x).getD t [])
          (temb.getD t []) encab := by
  rw [layerAttnPairs,
    getD_zipWith_of_lt _ _ _ _ [] [] ([], [])
      (by rw [length_layerConvOut]; exact ht) (hlen ▸ ht)]

lemma drop_getD_comm (M : FConvDecoder) (x : List Vec) (t : Nat) (h : t < x.length) :
    M.drop (x.getD t []) = (x.map M.drop).getD t [] :=
  (getD_map_of_lt M.drop x t [] [] h).symm

lemma hist_extend (M : FConvDecoder) (x : List Vec) (t : Nat) (h : t < x.length) :
    (x.map M.drop).take t ++ [M.drop (x.getD t [])] = (x.map M.drop).take (t + 1) := by
  rw [drop_getD_comm M x t h]
  exact take_concat_getD _ _ _ (by simpa using h)

/-- One incremental layer step, run on the position-`t` slice of the
full-sequence streams with the history of the first `t` steps, produces the
position-`t` slice of the full-sequence layer outputs and extends the
history by one step. -/
lemma layerStepInc_spec (M : FConvDecoder) (encab : Mat × Mat) (temb : List Vec)
    (n : Nat) (l : DecoderLayer) (x : List Vec) (t : Nat) (avgF : Option (List Vec))
    (avgI : Option Vec) (ht : t < x.length) (hlen : x.length = temb.length)
    (havg : avgI = avgF.map (fun m => m.getD t []))
    (hF : ∀ a, avgF = some a → a.length = temb.length) :
    layerStepInc M encab (temb.getD t []) n l ((x.map M.drop).take t) (x.getD t []) avgI
      = ((layerOutFull M encab temb l x).getD t [],
         (layerAvgFull M encab temb n l x avgF).map (fun m => m.getD t []),
         (x.map M.drop).take (t + 1)) := by
  have hconvlen : t < (layerConvOut M l x).length := by
    rw [length_layerConvOut]; exact ht
  have hreslen : t < (layerResidual l x).length := by
    rw [length_layerResidual]; exact ht
  have hhist := hist_extend M x t ht
  have hconv : glu M.sig (l.conv (takeLast l.kernel_size
      ((x.map M.drop).take t ++ [M.drop (x.getD t [])])))
      = (layerConvOut M l x).getD t [] := by
    rw [hhist]; exact (layerConvOut_getD M l x t ht).symm
  cases ha : l.attention with
  | none =>
      have hout : (layerOutFull M encab temb l x).getD t []
          = scaleVec (M.sqrtQ (1 / 2)) (vadd ((layerConvOut M l x).getD t [])
              ((layerResidual l x).getD t [])) := by
        rw [layerOutFull]
        simp only [ha]
        exact getD_zipWith_of_lt _ _ _ t [] [] [] hconvlen hreslen
      cases hp : l.proj with
      | none =>
          simp only [layerStepInc, ha, hp, layerAvgFull, Prod.mk.injEq]
          refine ⟨?_, havg, hhist⟩
          rw [hconv, hout, show layerResidual l x = x from by simp [layerResidual, hp]]
      | some p =>
          simp only [layerStepInc, ha, hp, layerAvgFull, Prod.mk.injEq]
          refine ⟨?_, havg, hhist⟩
          rw [hconv, hout, show (layerResidual l x).getD t [] = p (x.getD t []) from by
            simp only [layerResidual, hp]; exact getD_map_of_lt p x t [] [] ht]
  | some A =>
      have hpairslen : t < (layerAttnPairs M encab temb A l x).length := by
        rw [length_layerAttnPairs]; omega
      have hpairs := layerAttnPairs_getD M encab temb A l x t ht hlen
      have hxa : ((layerAttnPairs M encab temb A l x).map Prod.fst).getD t []
          = (AttentionLayer.forward M.sqrtQ M.expQ A ((layerConvOut M l x).getD t [])
              (temb.getD t []) encab).1 := by
        rw [getD_map_of_lt _ _ _ ([], []) [] hpairslen, hpairs]
      have hsc : (layerScoresRaw M encab temb A l x).getD t []
          = (AttentionLayer.forward M.sqrtQ M.expQ A ((layerConvOut M l x).getD t [])
              (temb.getD t []) encab).2 := by
        rw [layerScoresRaw, getD_map_of_lt _ _ _ ([], []) [] hpairslen, hpairs]
      have hsclen : (layerScoresRaw M encab temb A l x).length = x.length :=
        length_layerScoresRaw M encab temb A l x hlen
      have hout : (layerOutFull M encab temb l x).getD t []
          = scaleVec (M.sqrtQ (1 / 2))
              (vadd (((layerAttnPairs M encab temb A l x).map Prod.fst).getD t [])
                ((layerResidual l x).getD t [])) := by
        rw [layerOutFull]
        simp only [ha]
        exact getD_zipWith_of_lt _ _ _ t [] [] []
          (by rw [List.length_map]; exact hpairslen) hreslen
      have hscaledT : ((layerScoresRaw M encab temb A l x).map (divRow n)).getD t []
          = divRow n ((AttentionLayer.forward M.sqrtQ M.expQ A
              ((layerConvOut M l x).getD t []) (temb.getD t []) encab).2) := by
        rw [getD_map_of_lt _ _ _ [] [] (by rw [hsclen]; exact ht), hsc]
      have havg2 : some (accRow avgI (divRow n ((AttentionLayer.forward M.sqrtQ M.expQ A
            ((layerConvOut M l x).getD t []) (temb.getD t []) encab).2)))
          = (layerAvgFull M encab temb n l x avgF).map (fun m => m.getD t []) := by
        simp only [layerAvgFull, ha, Option.map_some']
        cases hq : avgF with
        | none =>
            rw [hq] at havg
            simp only [Option.map_none'] at havg
            subst havg
            simp only [accRow, accMat]
            rw [hscaledT]
        | some a =>
            rw [hq] at havg
            simp only [Option.map_some'] at havg
            subst havg
            simp only [accRow, accMat, Option.some.injEq]
            rw [getD_zipWith_of_lt addRow a _ t [] [] []
              (by rw [hF a hq]; omega)
              (by rw [List.length_map, hsclen]; exact ht), hscaledT]
      cases hp : l.proj with
      | none =>
          simp only [layerStepInc, ha, hp, Prod.mk.injEq]
          rw [hconv]
          refine ⟨?_, havg2, hhist⟩
          rw [hout, hxa, show layerResidual l x = x from by simp [layerResidual, hp]]
      | some p =>
          simp only [layerStepInc, ha, hp, Prod.mk.injEq]
          rw [hconv]
          refine ⟨?_, havg2, hhist⟩
          rw [hout, hxa, show (layerResidual l x).getD t [] = p (x.getD t []) from by
            simp only [layerResidual, hp]; exact getD_map_of_lt p x t [] [] ht]

lemma layerAvgFull_length (M : FConvDecoder) (encab : Mat × Mat) (temb : List Vec)
    (n : Nat) (l : DecoderLayer) (x : List Vec) (avgF : Option (List Vec))
    (hlen : x.length = temb.length)
    (hF : ∀ a, avgF = some a → a.length = temb.length) :
    ∀ a, layerAvgFull M encab temb n l x avgF = some a → a.length = temb.length := by
  intro a ha2
  cases ha : l.attention with
  | none =>
      simp only [layerAvgFull, ha] at ha2
      exact hF a ha2
  | some A =>
      simp only [layerAvgFull, ha, Option.some.injEq] at ha2
      subst ha2
      exact length_accMat avgF _ temb.length
        (by rw [List.length_map, length_layerScoresRaw M encab temb A l x hlen, hlen]) hF

/-- The decoder layer stack, run incrementally on the position-`t` slice
with the step-`t` histories, produces the position-`t` slice of the
full-sequence stack and the step-`(t+1)` histories. -/
lemma runLayersInc_spec (M : FConvDecoder) (encab : Mat × Mat) (temb : List Vec)
    (n : Nat) :
    ∀ (ls : List DecoderLayer) (x : List Vec) (t : Nat) (avgF : Option (List Vec))
      (avgI : Option Vec),
      t < x.length → x.length = temb.length →
      avgI = avgF.map (fun m => m.getD t []) →
      (∀ a, avgF = some a → a.length = temb.length) →
      runLayersInc M encab (temb.getD t []) n ls (histsSpec M encab temb ls x t)
          (x.getD t []) avgI
        = ((runLayersFull M encab temb n ls x avgF).1.getD t [],
           ((runLayersFull M encab temb n ls x avgF).2).map (fun m => m.getD t []),
           histsSpec M encab temb ls x (t + 1)) := by
  intro ls
  induction ls with
  | nil =>
      intro x t avgF avgI ht hlen havg hF
      simp [runLayersInc, runLayersFull, histsSpec, havg]
  | cons l ls ih =>
      intro x t avgF avgI ht hlen havg hF
      have hx' : (layerOutFull M encab temb l x).length = x.length :=
        length_layerOutFull M encab temb l x hlen
      simp only [histsSpec, runLayersInc, List.headD_cons, List.tail_cons]
      rw [layerStepInc_spec M encab temb n l x t avgF avgI ht hlen havg hF]
      rw [ih (layerOutFull M encab temb l x) t (layerAvgFull M encab temb n l x avgF)
        ((layerAvgFull M encab temb n l x avgF).map (fun m => m.getD t []))
        (by rw [hx']; exact ht) (by rw [hx']; exact hlen) rfl
        (layerAvgFull_length M encab temb n l x avgF hlen hF)]
      rw [runLayersFull]

lemma length_tembOf (M : FConvDecoder) (ts : List Nat) :
    (tembOf M ts).length = ts.length := by
  simp [tembOf]

lemma length_x0Of (M : FConvDecoder) (ts : List Nat) :
    (x0Of M ts).length = ts.length := by
  simp [x0Of, length_tembOf]

/-- One incremental `forward` call on the token prefix `ts.take (t+1)`,
with the cache and histories of the first `t` steps, produces the
position-`t` slice of the full-sequence `forward` over `ts` and the state
of the first `t + 1` steps. -/
lemma forwardStep_spec (M : FConvDecoder) (enc : Mat × Mat) (ts : List Nat) (t : Nat)
    (st : IncState) (ht : t < ts.length)
    (hc : st.encoder_cache = none ∨ st.encoder_cache = some (encabOf enc))
    (hh : st.conv_hists
        = histsSpec M (encabOf enc) (tembOf M ts) M.layers (x0Of M ts) t) :
    FConvDecoder.forwardStep M enc (ts.take (t + 1)) st
      = (((FConvDecoder.forwardFull M enc ts).1.getD t [],
          ((FConvDecoder.forwardFull M enc ts).2).map (fun m => m.getD t [])),
         ⟨some (encabOf enc),
          histsSpec M (encabOf enc) (tembOf M ts) M.layers (x0Of M ts) (t + 1)⟩) := by
  have hsp : split_encoder_out st.encoder_cache enc = (encabOf enc, some (encabOf enc)) := by
    cases hc with
    | inl h => rw [h]; rfl
    | inr h => rw [h]; rfl
  have htval : (ts.take (t + 1)).length - 1 = t := by
    rw [List.length_take]; omega
  have htok : (ts.take (t + 1)).getLast?.getD 0 = ts.getD t 0 :=
    getLast?_take_getD ts t 0 ht
  have htemb : (tembOf M ts).getD t []
      = M.drop (vadd (M.embed_tokens (ts.getD t 0)) (M.embed_positions t)) := by
    rw [tembOf, getD_zipWith_of_lt _ _ _ t 0 0 [] (by simpa using ht) ht,
      getD_range_of_lt _ _ ht]
  have hx0 : (x0Of M ts).getD t [] = M.fc1 ((tembOf M ts).getD t []) := by
    rw [x0Of, getD_map_of_lt _ _ _ [] [] (by rw [length_tembOf]; exact ht)]
  have hrunlen : ((runLayersFull M (encabOf enc) (tembOf M ts) M.layers.length M.layers
      (x0Of M ts) none).1).length = (tembOf M ts).length :=
    length_runLayersFull_fst M (encabOf enc) (tembOf M ts) M.layers.length M.layers
      (x0Of M ts) none (by rw [length_x0Of, length_tembOf])
  have hlog : (FConvDecoder.forwardFull M enc ts).1.getD t []
      = M.fc3 (M.drop (M.fc2 ((runLayersFull M (encabOf enc) (tembOf M ts)
          M.layers.length M.layers (x0Of M ts) none).1.getD t []))) := by
    simp only [FConvDecoder.forwardFull]
    rw [getD_map_of_lt _ _ _ [] []
      (by rw [hrunlen, length_tembOf]; exact ht)]
  have hattn : (FConvDecoder.forwardFull M enc ts).2
      = (runLayersFull M (encabOf enc) (tembOf M ts) M.layers.length M.layers
          (x0Of M ts) none).2 := rfl
  simp only [FConvDecoder.forwardStep, hsp, htval, htok, hh]
  rw [← htemb, ← hx0]
  rw [runLayersInc_spec M (encabOf enc) (tembOf M ts) M.layers.length M.layers
    (x0Of M ts) t none none (by rw [length_x0Of]; exact ht)
    (by rw [length_x0Of, length_tembOf]) rfl (fun a h => by cases h)]
  rw [hlog, hattn]

/-- `n` incremental steps starting after `p` correctly executed steps
produce the position slices `p, p+1, ..., p+n-1` of the full-sequence
forward pass. -/
lemma runSteps_spec (M : FConvDecoder) (enc : Mat × Mat) (ts : List Nat) :
    ∀ (n p : Nat) (st : IncState), p + n ≤ ts.length →
      (st.encoder_cache = none ∨ st.encoder_cache = some (encabOf enc)) →
      st.conv_hists
        = histsSpec M (encabOf enc) (tembOf M ts) M.layers (x0Of M ts) p →
      runSteps M enc ts p n st
        = (List.range n).map (fun i =>
            ((FConvDecoder.forwardFull M enc ts).1.getD (p + i) [],
             ((FConvDecoder.forwardFull M enc ts).2).map (fun m => m.getD (p + i) []))) := by
  intro n
  induction n with
  | zero => intro p st _ _ _; simp [runSteps]
  | succ n ih =>
      intro p st h hc hh
      rw [runSteps]
      rw [forwardStep_spec M enc ts p st (by omega) hc hh]
      rw [ih (p + 1) _ (by omega) (Or.inr rfl) rfl]
      rw [List.range_succ_eq_map, List.map_cons, List.map_map]
      simp only [Nat.add_zero]
      congr 1
      apply List.map_congr_left
      intro i _
      have hpi : p + 1 + i = p + (i + 1) := by omega
      simp [Function.comp, hpi]

lemma histsSpec_zero (M : FConvDecoder) (encab : Mat × Mat) (temb : List Vec) :
    ∀ (ls : List DecoderLayer) (x : List Vec),
      histsSpec M encab temb ls x 0 = ls.map (fun _ => ([] : List Vec)) := by
  intro ls
  induction ls with
  | nil => intro x; rfl
  | cons l ls ih => intro x; simp [histsSpec, ih]

/-- A whole incremental run over `ts` computes exactly the sequence of
position slices of the full-sequence forward pass over `ts`. -/
lemma forwardIncrementalRun_spec (M : FConvDecoder) (enc : Mat × Mat) (ts : List Nat) :
    forwardIncrementalRun M enc ts
      = (List.range ts.length).map (fun i =>
          ((FConvDecoder.forwardFull M enc ts).1.getD i [],
           ((FConvDecoder.forwardFull M enc ts).2).map (fun m => m.getD i []))) := by
  rw [forwardIncrementalRun,
    runSteps_spec M enc ts ts.length 0 _ (by omega) (Or.inl rfl)
      (histsSpec_zero M (encabOf enc) (tembOf M ts) M.layers (x0Of M ts)).symm]
  simp

/-- When the token prefixes consumed by the first `n` steps agree, the two
incremental runs agree on those steps (the step function reads the tokens
only through its prefix argument). -/
lemma runSteps_congr (M : FConvDecoder) (enc : Mat × Mat) (ts1 ts2 : List Nat) :
    ∀ (n p : Nat) (st : IncState),
      (∀ s, s < n → ts1.take (p + s + 1) = ts2.take (p + s + 1)) →
      runSteps M enc ts1 p n st = runSteps M enc ts2 p n st := by
  intro n
  induction n with
  | zero => intro p st _; rfl
  | succ n ih =>
      intro p st h
      rw [runSteps, runSteps]
      have h0 : ts1.take (p + 1) = ts2.take (p + 1) := by
        have := h 0 (by omega)
        simpa using this
      rw [h0]
      rw [ih (p + 1) _ (fun s hs => by
        have e : p + 1 + s + 1 = p + (s + 1) + 1 := by omega
        rw [e]
        exact h (s + 1) (by omega))]

/-- The step-`t` output of an incremental run equals the position-`t`
slice of the full-sequence forward pass (shared kernel of C1 and C8). -/
lemma incRun_getD_eq (M : FConvDecoder) (enc : Mat × Mat) (ts : List Nat) (t : Nat)
    (ht : t < ts.length) :
    (forwardIncrementalRun M enc ts).getD t ([], none)
      = ((FConvDecoder.forwardFull M enc ts).1.getD t [],
         ((FConvDecoder.forwardFull M enc ts).2).map (fun m => m.getD t [])) := by
  rw [forwardIncrementalRun_spec,
    getD_map_of_lt _ _ _ 0 ([], none) (by simpa using ht),
    getD_range_of_lt _ _ ht]

/-! ### C1: incremental mode refines full-sequence mode -/

/-- Claim C1: for every decoder configuration, encoder output and target
prefix, running the decoder incrementally one token at a time — carrying
the per-layer convolution histories and the cached, transposed `context_a`
between steps, starting from the empty incremental state — produces at
every step `t` exactly the vocabulary logits and the averaged
attention-weight row of position `t` of a single full-sequence
`FConvDecoder.forward` over the same prefix with the same encoder output
(the rational model is exact, hence within any floating-point tolerance). -/
theorem fconv_decoder_incremental_matches_full (M : FConvDecoder) (enc : Mat × Mat)
    (ts : List Nat) (t : Nat) (ht : t < ts.length) :
    (forwardIncrementalRun M enc ts).getD t ([], none)
      = ((FConvDecoder.forwardFull M enc ts).1.getD t [],
         ((FConvDecoder.forwardFull M enc ts).2).map (fun m => m.getD t [])) :=
  incRun_getD_eq M enc ts t ht

/-- Witness for C1: the two-layer decoder with `attention=[True, False]`
on the three-token prefix `[0, 1, 2]` at step 1. -/
theorem fconv_decoder_incremental_matches_full_witness :
    (1 < ([0, 1, 2] : List Nat).length)
    ∧ (forwardIncrementalRun cexDecoder cexEnc [0, 1, 2]).getD 1 ([], none)
        = ((FConvDecoder.forwardFull cexDecoder cexEnc [0, 1, 2]).1.getD 1 [],
           ((FConvDecoder.forwardFull cexDecoder cexEnc [0, 1, 2]).2).map
             (fun m => m.getD 1 [])) :=
  ⟨by decide,
    fconv_decoder_incremental_matches_full cexDecoder cexEnc [0, 1, 2] 1 (by decide)⟩

/-! ### C8: causal future-masking -/

/-- Claim C8: the decoder output (logits and averaged attention) at target
position `t` is unaffected by any change of the target tokens at positions
strictly greater than `t`: two forward passes whose token inputs agree on
positions `0..t` agree at position `t`, both in full-sequence mode (where
`remove_future_timesteps` drops the convolution outputs that would see the
future) and in incremental mode. -/
theorem fconv_decoder_causal_masking (M : FConvDecoder) (enc : Mat × Mat)
    (ts1 ts2 : List Nat) (t : Nat) (h1 : t < ts1.length) (h2 : t < ts2.length)
    (hagree : ts1.take (t + 1) = ts2.take (t + 1)) :
    ((FConvDecoder.forwardFull M enc ts1).1.getD t []
        = (FConvDecoder.forwardFull M enc ts2).1.getD t []
      ∧ ((FConvDecoder.forwardFull M enc ts1).2).map (fun m => m.getD t [])
          = ((FConvDecoder.forwardFull M enc ts2).2).map (fun m => m.getD t []))
    ∧ (forwardIncrementalRun M enc ts1).getD t ([], none)
        = (forwardIncrementalRun M enc ts2).getD t ([], none) := by
  have htake : ∀ s, s < t + 1 → ts1.take (s + 1) = ts2.take (s + 1) := by
    intro s hs
    have e1 : (ts1.take (t + 1)).take (s + 1) = ts1.take (s + 1) := by
      rw [List.take_take]
      congr 1
      omega
    have e2 : (ts2.take (t + 1)).take (s + 1) = ts2.take (s + 1) := by
      rw [List.take_take]
      congr 1
      omega
    rw [← e1, ← e2, hagree]
  have hrun : runSteps M enc ts1 0 (t + 1) ⟨none, M.layers.map (fun _ => [])⟩
      = runSteps M enc ts2 0 (t + 1) ⟨none, M.layers.map (fun _ => [])⟩ :=
    runSteps_congr M enc ts1 ts2 (t + 1) 0 _ (fun s hs => by
      have := htake s hs
      simpa using this)
  rw [runSteps_spec M enc ts1 (t + 1) 0 _ (by omega) (Or.inl rfl)
      (histsSpec_zero M (encabOf enc) (tembOf M ts1) M.layers (x0Of M ts1)).symm,
    runSteps_spec M enc ts2 (t + 1) 0 _ (by omega) (Or.inl rfl)
      (histsSpec_zero M (encabOf enc) (tembOf M ts2) M.layers (x0Of M ts2)).symm]
    at hrun
  have hpair := congrArg (fun L => L.getD t (([] : Vec), (none : Option Vec))) hrun
  simp only at hpair
  rw [getD_map_of_lt _ _ _ 0 ([], none) (by simp),
    getD_map_of_lt _ _ _ 0 ([], none) (by simp),
    getD_range_of_lt _ _ (Nat.lt_succ_self t)] at hpair
  simp only [Nat.zero_add] at hpair
  refine ⟨⟨congrArg Prod.fst hpair, congrArg Prod.snd hpair⟩, ?_⟩
  rw [incRun_getD_eq M enc ts1 t h1, incRun_getD_eq M enc ts2 t h2]
  exact hpair

/-- Witness for C8: prefixes `[0, 1, 2]` and `[0, 1, 7]` agree up to
position 1, where the outputs coincide. -/
theorem fconv_decoder_causal_masking_witness :
    (1 < ([0, 1, 2] : List Nat).length) ∧ (1 < ([0, 1, 7] : List Nat).length)
    ∧ ([0, 1, 2] : List Nat).take 2 = ([0, 1, 7] : List Nat).take 2
    ∧ (forwardIncrementalRun cexDecoder cexEnc [0, 1, 2]).getD 1 ([], none)
        = (forwardIncrementalRun cexDecoder cexEnc [0, 1, 7]).getD 1 ([], none) :=
  ⟨by decide, by decide, by decide,
    (fconv_decoder_causal_masking cexDecoder cexEnc [0, 1, 2] [0, 1, 7] 1
      (by decide) (by decide) (by decide)).2⟩

end FConv

